import Mathlib

/-
Verification of the virtual-memory range algebra and range allocator of the
pranaOS kernel (`kernel/memory/`): `VirtualRange` carve/intersect/expand,
the `VirtualRangeAllocator` free-range bookkeeping, the private inode VM
object clone, and the `PageDirectory` cr3 registry.

Addresses (`FlatPtr`) and sizes (`size_t`) are modelled as natural numbers
below `2^64`, with wrap-around made explicit (`% ADDRESS_SPACE_SIZE`) where
the C++ arithmetic can overflow.  Fatal `VERIFY` assertions are modelled as
`none` results; `KResultOr` as `Except`.
-/

namespace Kernel.Memory

/-- Page size of the kernel memory subsystem (4 KiB pages). -/
def PAGE_SIZE : Nat := 4096

/-- Size of the flat address space: `2 ^ 64` (64-bit `FlatPtr`). -/
def ADDRESS_SPACE_SIZE : Nat := 18446744073709551616

/-- Models `VirtualRange`: a contiguous interval of virtual addresses given by
its base address and byte size (`kernel/memory/VirtualRange.h`, fields
`m_base`, `m_size`).  Two ranges are equal iff base and size are equal. -/
structure VirtualRange where
  base : Nat
  size : Nat
deriving DecidableEq

/-- Models `VirtualRange::end()`: one past the last address, `base + size`. -/
def VirtualRange.endAddr (r : VirtualRange) : Nat := r.base + r.size

/-- Membership of an address in the half-open interval of a range. -/
def VirtualRange.containsAddr (r : VirtualRange) (a : Nat) : Prop :=
  r.base ≤ a ∧ a < r.endAddr

instance (r : VirtualRange) (a : Nat) : Decidable (r.containsAddr a) :=
  inferInstanceAs (Decidable (r.base ≤ a ∧ a < r.endAddr))

/-- Models `VirtualRange::contains(VirtualRange)`: the inner range lies fully
inside the outer one. -/
def VirtualRange.containsRange (outer inner : VirtualRange) : Prop :=
  outer.base ≤ inner.base ∧ inner.endAddr ≤ outer.endAddr

instance (o i : VirtualRange) : Decidable (o.containsRange i) :=
  inferInstanceAs (Decidable (o.base ≤ i.base ∧ i.endAddr ≤ o.endAddr))

/-- Two ranges overlap when they share at least one address, i.e. the
intersection interval `[max base, min end)` is non-empty. -/
def VirtualRange.overlaps (p q : VirtualRange) : Prop :=
  max p.base q.base < min p.endAddr q.endAddr

instance (p q : VirtualRange) : Decidable (p.overlaps q) :=
  inferInstanceAs (Decidable (max p.base q.base < min p.endAddr q.endAddr))

/-- Body of `VirtualRange::carve` after the alignment assertion
(`kernel/memory/VirtualRange.cpp` lines 16-28): the zero, one or two leftover
pieces of `self` not covered by `taken`. -/
def VirtualRange.carveParts (self taken : VirtualRange) : List VirtualRange :=
  if taken = self then []
  else
    (if self.base < taken.base then [⟨self.base, taken.base - self.base⟩] else [])
      ++ (if taken.endAddr < self.endAddr then
            [⟨taken.endAddr, self.endAddr - taken.endAddr⟩] else [])

/-- Models `VirtualRange::carve`.  The result is `none` exactly when the fatal
`VERIFY((taken.size() % PAGE_SIZE) == 0)` assertion fires. -/
def VirtualRange.carve (self taken : VirtualRange) : Option (List VirtualRange) :=
  if taken.size % PAGE_SIZE = 0 then some (self.carveParts taken) else none

/-- Models `VirtualRange::intersect` (`VirtualRange.cpp` lines 29-38): equal
ranges are returned as-is; otherwise the intersection `[max base, min end)` is
returned, and the fatal `VERIFY(new_base < new_end)` assertion (modelled as
`none`) fires when that interval is empty. -/
def VirtualRange.intersect (self other : VirtualRange) : Option VirtualRange :=
  if self = other then some self
  else
    let newBase := max self.base other.base
    let newEnd := min self.endAddr other.endAddr
    if newBase < newEnd then some ⟨newBase, newEnd - newBase⟩ else none

/-- Models the kernel error code returned by the range-construction path. -/
inductive KError where
  | EINVAL
deriving DecidableEq

/-- Models `page_round_up_would_wrap(x)`: rounding `x` up to a page boundary
would leave the address space (the helper itself is declared in a header not
part of this excerpt; behaviour as used by `expand_to_page_boundaries`). -/
def page_round_up_would_wrap (x : Nat) : Prop :=
  ADDRESS_SPACE_SIZE - PAGE_SIZE < x

instance (x : Nat) : Decidable (page_round_up_would_wrap x) :=
  inferInstanceAs (Decidable (ADDRESS_SPACE_SIZE - PAGE_SIZE < x))

/-- Models `page_round_up(x)`: the least multiple of `PAGE_SIZE` that is not
below `x` (callers guard against wrap beforehand). -/
def page_round_up (x : Nat) : Nat :=
  (x + PAGE_SIZE - 1) / PAGE_SIZE * PAGE_SIZE

/-- Models `VirtualAddress::page_base()`: `x` rounded down to a page boundary. -/
def page_base (x : Nat) : Nat := x / PAGE_SIZE * PAGE_SIZE

/-- Models `VirtualRange::expand_to_page_boundaries(address, size)`
(`VirtualRange.cpp` lines 40-55).  The C++ sum `address + size` is `FlatPtr`
arithmetic, hence taken modulo the address-space size. -/
def expand_to_page_boundaries (address size : Nat) : Except KError VirtualRange :=
  if page_round_up_would_wrap size then .error .EINVAL
  else if (address + size) % ADDRESS_SPACE_SIZE < address then .error .EINVAL
  else if page_round_up_would_wrap ((address + size) % ADDRESS_SPACE_SIZE) then .error .EINVAL
  else
    let b := page_base address
    let e := page_round_up ((address + size) % ADDRESS_SPACE_SIZE)
    .ok ⟨b, e - b⟩

/-- Full correctness property of `carve` on a contained, page-aligned `taken`
range: the pieces together with `taken` tile the original range, are pairwise
disjoint and disjoint from `taken`, and their number reflects which edges of
the original range `taken` touches. -/
def carveSpec (A B : VirtualRange) : Prop :=
  ∃ parts, A.carve B = some parts ∧
    (∀ a, A.containsAddr a ↔ (B.containsAddr a ∨ ∃ p ∈ parts, p.containsAddr a)) ∧
    List.Pairwise (fun p q => ∀ a, ¬ (p.containsAddr a ∧ q.containsAddr a)) parts ∧
    (∀ p ∈ parts, ∀ a, ¬ (p.containsAddr a ∧ B.containsAddr a)) ∧
    (parts.length = 0 ↔ B = A) ∧
    (parts.length = 1 ↔
      ((B.base = A.base ∧ B.endAddr ≠ A.endAddr) ∨
        (B.base ≠ A.base ∧ B.endAddr = A.endAddr))) ∧
    ((A.base < B.base ∧ B.endAddr < A.endAddr) → parts.length = 2)

/-- C1: for all ranges A and B with B fully contained in A and B.size a
multiple of the page size, `A.carve(B)` returns the leftover sub-ranges of A
not covered by B: their union together with B equals A, they are pairwise
disjoint and disjoint from B, and their count is 0 iff B == A, 1 iff B touches
exactly one edge of A, and 2 if B is strictly interior to A. -/
theorem carve_correct (A B : VirtualRange)
    (hsub : A.containsRange B) (halign : PAGE_SIZE ∣ B.size) : carveSpec A B := by
  obtain ⟨Ab, As⟩ := A
  obtain ⟨Bb, Bs⟩ := B
  obtain ⟨hb, he⟩ := hsub
  simp only [VirtualRange.endAddr] at hb he
  obtain ⟨c, hc⟩ := halign
  have hmod : Bs % PAGE_SIZE = 0 := by
    simp only at hc
    rw [hc]
    exact Nat.mul_mod_right _ _
  have hcarve : VirtualRange.carve ⟨Ab, As⟩ ⟨Bb, Bs⟩ =
      some (VirtualRange.carveParts ⟨Ab, As⟩ ⟨Bb, Bs⟩) := by
    unfold VirtualRange.carve
    exact if_pos hmod
  by_cases hBA : (⟨Bb, Bs⟩ : VirtualRange) = ⟨Ab, As⟩
  · refine ⟨[], ?_, ?_, ?_, ?_, ?_, ?_, ?_⟩
    · rw [hcarve]
      unfold VirtualRange.carveParts
      rw [if_pos hBA]
    · intro a
      simp only [List.not_mem_nil, false_and, exists_false, or_false]
      simp only [VirtualRange.mk.injEq] at hBA
      simp only [VirtualRange.containsAddr, VirtualRange.endAddr]
      omega
    · exact List.Pairwise.nil
    · simp
    · simpa using hBA
    · simp only [VirtualRange.mk.injEq] at hBA
      simp only [List.length_nil, VirtualRange.endAddr]
      constructor
      · omega
      · intro h
        omega
    · simp only [VirtualRange.mk.injEq] at hBA
      simp only [VirtualRange.endAddr]
      intro h
      omega
  · have hBA' : ¬ (Bb = Ab ∧ Bs = As) := by
      simpa [VirtualRange.mk.injEq] using hBA
    by_cases h1 : Ab < Bb <;> by_cases h2 : Bb + Bs < Ab + As
    · -- strictly interior: two parts
      have hparts : VirtualRange.carveParts ⟨Ab, As⟩ ⟨Bb, Bs⟩ =
          [⟨Ab, Bb - Ab⟩, ⟨Bb + Bs, (Ab + As) - (Bb + Bs)⟩] := by
        unfold VirtualRange.carveParts
        rw [if_neg hBA]
        simp only [VirtualRange.endAddr]
        rw [if_pos h1, if_pos h2]
        rfl
      unfold carveSpec
      rw [hcarve, hparts]
      refine ⟨_, rfl, ?_, ?_, ?_, ?_, ?_, ?_⟩
      · intro a
        simp only [List.mem_cons, List.not_mem_nil, or_false, exists_eq_or_imp,
          exists_eq_left, VirtualRange.containsAddr, VirtualRange.endAddr]
        omega
      · refine List.Pairwise.cons ?_ (List.pairwise_singleton _ _)
        intro q hq a
        simp only [List.mem_singleton] at hq
        subst hq
        simp only [VirtualRange.containsAddr, VirtualRange.endAddr]
        omega
      · intro p hp a
        simp only [List.mem_cons, List.not_mem_nil, or_false] at hp
        rcases hp with hp | hp <;> subst hp <;>
          simp only [VirtualRange.containsAddr, VirtualRange.endAddr] <;> omega
      · simp only [List.length_cons, List.length_nil, VirtualRange.mk.injEq]
        constructor
        · omega
        · intro h
          omega
      · simp only [List.length_cons, List.length_nil, VirtualRange.endAddr]
        constructor
        · omega
        · intro h
          omega
      · intro _
        rfl
    · -- touches the end edge only: one left part
      have hend : Bb + Bs = Ab + As := by omega
      have hparts : VirtualRange.carveParts ⟨Ab, As⟩ ⟨Bb, Bs⟩ = [⟨Ab, Bb - Ab⟩] := by
        unfold VirtualRange.carveParts
        rw [if_neg hBA]
        simp only [VirtualRange.endAddr]
        rw [if_pos h1, if_neg h2]
        rfl
      unfold carveSpec
      rw [hcarve, hparts]
      refine ⟨_, rfl, ?_, ?_, ?_, ?_, ?_, ?_⟩
      · intro a
        simp only [List.mem_singleton, exists_eq_left, VirtualRange.containsAddr,
          VirtualRange.endAddr]
        omega
      · exact List.pairwise_singleton _ _
      · intro p hp a
        simp only [List.mem_singleton] at hp
        subst hp
        simp only [VirtualRange.containsAddr, VirtualRange.endAddr]
        omega
      · simp only [List.length_cons, List.length_nil, VirtualRange.mk.injEq]
        constructor
        · omega
        · intro h
          omega
      · simp only [List.length_cons, List.length_nil, VirtualRange.endAddr]
        constructor
        · intro _
          right
          omega
        · intro _
          trivial
      · simp only [VirtualRange.endAddr]
        intro h
        omega
    · -- touches the base edge only: one right part
      have hbase : Bb = Ab := by omega
      have hparts : VirtualRange.carveParts ⟨Ab, As⟩ ⟨Bb, Bs⟩ =
          [⟨Bb + Bs, (Ab + As) - (Bb + Bs)⟩] := by
        unfold VirtualRange.carveParts
        rw [if_neg hBA]
        simp only [VirtualRange.endAddr]
        rw [if_neg h1, if_pos h2]
        rfl
      unfold carveSpec
      rw [hcarve, hparts]
      refine ⟨_, rfl, ?_, ?_, ?_, ?_, ?_, ?_⟩
      · intro a
        simp only [List.mem_singleton, exists_eq_left, VirtualRange.containsAddr,
          VirtualRange.endAddr]
        omega
      · exact List.pairwise_singleton _ _
      · intro p hp a
        simp only [List.mem_singleton] at hp
        subst hp
        simp only [VirtualRange.containsAddr, VirtualRange.endAddr]
        omega
      · simp only [List.length_cons, List.length_nil, VirtualRange.mk.injEq]
        constructor
        · omega
        · intro h
          omega
      · simp only [List.length_cons, List.length_nil, VirtualRange.endAddr]
        constructor
        · intro _
          left
          omega
        · intro _
          trivial
      · simp only [VirtualRange.endAddr]
        intro h
        omega
    · -- neither edge strict: B must equal A, contradiction
      exact absurd (by omega : Bb = Ab ∧ Bs = As) hBA'

/-- Closed witness instantiating `carve_correct` on a strictly interior carve. -/
theorem carve_correct_witness : carveSpec ⟨0, 12288⟩ ⟨4096, 4096⟩ :=
  carve_correct ⟨0, 12288⟩ ⟨4096, 4096⟩ (by decide) (by decide)

/-- C6: carve triggers the fatal assertion exactly when `taken.size` is not a
multiple of the page size; for every page-aligned `taken` the assertion branch
is unreachable and the leftover pieces are returned. -/
theorem carve_assert_iff :
    (∀ A B : VirtualRange, A.carve B = none ↔ ¬ PAGE_SIZE ∣ B.size) ∧
    (∀ A B : VirtualRange, PAGE_SIZE ∣ B.size →
      A.carve B = some (A.carveParts B)) := by
  have hdvd : ∀ n : Nat, PAGE_SIZE ∣ n ↔ n % PAGE_SIZE = 0 := by
    intro n
    constructor
    · intro ⟨c, hc⟩
      rw [hc]
      exact Nat.mul_mod_right _ _
    · exact Nat.dvd_of_mod_eq_zero
  constructor
  · intro A B
    unfold VirtualRange.carve
    rw [hdvd]
    split_ifs with h
    · simp [h]
    · simp [h]
  · intro A B hB
    unfold VirtualRange.carve
    exact if_pos ((hdvd _).mp hB)

/-- Closed witness instantiating the aligned branch of `carve_assert_iff`. -/
theorem carve_assert_iff_witness :
    VirtualRange.carve ⟨0, 8192⟩ ⟨0, 4096⟩ =
      some (VirtualRange.carveParts ⟨0, 8192⟩ ⟨0, 4096⟩) :=
  carve_assert_iff.2 ⟨0, 8192⟩ ⟨0, 4096⟩ (by decide)

/-- Correctness property of `intersect` on overlapping ranges: the result is
the interval from the larger base to the smaller end, lies inside both
arguments, and equals them when they are equal. -/
def intersectOverlapSpec (A B : VirtualRange) : Prop :=
  ∃ r, A.intersect B = some r ∧
    r.base = max A.base B.base ∧
    r.endAddr = min A.endAddr B.endAddr ∧
    (∀ a, r.containsAddr a → A.containsAddr a) ∧
    (∀ a, r.containsAddr a → B.containsAddr a) ∧
    (A = B → r = A)

/-- C5 counterexample: the claim asserts that calling `intersect` on two
non-overlapping ranges (empty intersection) triggers the fatal assertion
rather than returning a value; but for two equal empty ranges, which share no
address, `intersect` takes the equality fast path and returns a value. -/
theorem intersect_nonoverlap_counterexample :
    ¬ VirtualRange.overlaps ⟨0, 0⟩ ⟨0, 0⟩ ∧
      VirtualRange.intersect ⟨0, 0⟩ ⟨0, 0⟩ = some ⟨0, 0⟩ := by
  constructor
  · decide
  · rfl

/-- C5 (amended): for all overlapping ranges A and B, `A.intersect(B)` returns
a range with base `max(A.base, B.base)` and end `min(A.end, B.end)`, fully
contained in both, equal to A and B when A == B; calling intersect on two
distinct non-overlapping ranges triggers the fatal assertion rather than
returning a value, and under the overlap precondition that assertion is
unreachable. -/
theorem intersect_correct :
    (∀ A B : VirtualRange, A.overlaps B → intersectOverlapSpec A B) ∧
    (∀ A B : VirtualRange, A ≠ B → ¬ A.overlaps B → A.intersect B = none) := by
  constructor
  · intro A B hov
    unfold VirtualRange.overlaps at hov
    by_cases hAB : A = B
    · subst hAB
      refine ⟨A, ?_, ?_, ?_, ?_, ?_, ?_⟩
      · unfold VirtualRange.intersect
        exact if_pos rfl
      · omega
      · omega
      · intro a ha
        exact ha
      · intro a ha
        exact ha
      · intro _
        rfl
    · refine ⟨⟨max A.base B.base, min A.endAddr B.endAddr - max A.base B.base⟩,
        ?_, rfl, ?_, ?_, ?_, ?_⟩
      · unfold VirtualRange.intersect
        rw [if_neg hAB]
        simp only
        rw [if_pos hov]
      · simp only [VirtualRange.endAddr] at hov ⊢
        omega
      · intro a ha
        simp only [VirtualRange.containsAddr, VirtualRange.endAddr] at ha ⊢
        omega
      · intro a ha
        simp only [VirtualRange.containsAddr, VirtualRange.endAddr] at ha ⊢
        omega
      · intro h
        exact absurd h hAB
  · intro A B hne hov
    unfold VirtualRange.overlaps at hov
    unfold VirtualRange.intersect
    rw [if_neg hne]
    simp only
    rw [if_neg hov]

/-- Closed witness instantiating both conjuncts of `intersect_correct`. -/
theorem intersect_correct_witness :
    intersectOverlapSpec ⟨0, 8192⟩ ⟨4096, 8192⟩ ∧
      VirtualRange.intersect ⟨0, 4096⟩ ⟨8192, 4096⟩ = none :=
  ⟨intersect_correct.1 ⟨0, 8192⟩ ⟨4096, 8192⟩ (by decide),
    intersect_correct.2 ⟨0, 4096⟩ ⟨8192, 4096⟩ (by decide) (by decide)⟩

/-- Success property of `expand_to_page_boundaries`: a page-aligned range that
covers `[address, address + size)`, starts at or below `address`, ends at
or above `address + size`, and is the shortest page-aligned range doing so. -/
def expandOkSpec (address size : Nat) : Prop :=
  ∃ r, expand_to_page_boundaries address size = .ok r ∧
    r.base % PAGE_SIZE = 0 ∧
    r.size % PAGE_SIZE = 0 ∧
    r.base ≤ address ∧
    address + size ≤ r.endAddr ∧
    ∀ b e, b % PAGE_SIZE = 0 → e % PAGE_SIZE = 0 → b ≤ address →
      address + size ≤ e → r.size ≤ e - b

/-- C3: for every (address, size) such that address + size does not overflow
and rounding address + size up to a page boundary does not overflow,
`expand_to_page_boundaries` succeeds and returns a page-aligned range with
base at most address and end at least address + size, of minimal length among
page-aligned ranges containing the request. -/
theorem expand_to_page_boundaries_ok (address size : Nat)
    (h1 : address + size < ADDRESS_SPACE_SIZE)
    (h2 : ¬ page_round_up_would_wrap (address + size)) :
    expandOkSpec address size := by
  unfold ADDRESS_SPACE_SIZE at h1
  unfold page_round_up_would_wrap ADDRESS_SPACE_SIZE PAGE_SIZE at h2
  have hm : (address + size) % ADDRESS_SPACE_SIZE = address + size := by
    unfold ADDRESS_SPACE_SIZE
    omega
  unfold expandOkSpec expand_to_page_boundaries
  rw [hm]
  rw [if_neg (by unfold page_round_up_would_wrap ADDRESS_SPACE_SIZE PAGE_SIZE; omega)]
  rw [if_neg (by omega)]
  rw [if_neg (by unfold page_round_up_would_wrap ADDRESS_SPACE_SIZE PAGE_SIZE; omega)]
  refine ⟨_, rfl, ?_, ?_, ?_, ?_, ?_⟩
  · dsimp only
    unfold page_base PAGE_SIZE
    omega
  · dsimp only
    unfold page_round_up page_base PAGE_SIZE
    omega
  · dsimp only
    unfold page_base PAGE_SIZE
    omega
  · unfold VirtualRange.endAddr
    dsimp only
    unfold page_round_up page_base PAGE_SIZE
    omega
  · intro b e hbal heal hble hse
    dsimp only
    unfold PAGE_SIZE at hbal heal
    unfold page_round_up page_base PAGE_SIZE
    omega

/-- Closed witness instantiating `expand_to_page_boundaries_ok` on an
unaligned request. -/
theorem expand_to_page_boundaries_ok_witness : expandOkSpec 5000 100 :=
  expand_to_page_boundaries_ok 5000 100 (by decide) (by decide)

/-- Error characterisation of `expand_to_page_boundaries`: EINVAL exactly when
the sum wraps the address space or rounding the end up would wrap; any other
input yields a range. -/
def expandErrSpec (address size : Nat) : Prop :=
  (expand_to_page_boundaries address size = .error .EINVAL ↔
    (ADDRESS_SPACE_SIZE ≤ address + size ∨ page_round_up_would_wrap (address + size))) ∧
  (¬ (ADDRESS_SPACE_SIZE ≤ address + size ∨ page_round_up_would_wrap (address + size)) →
    ∃ r, expand_to_page_boundaries address size = .ok r)

/-- C4: `expand_to_page_boundaries(address, size)` fails with EINVAL if and
only if address + size wraps the address space or rounding the end up to a
page boundary would wrap; in every other case it returns a range rather than
an error. -/
theorem expand_to_page_boundaries_error_iff (address size : Nat)
    (ha : address < ADDRESS_SPACE_SIZE) (hs : size < ADDRESS_SPACE_SIZE) :
    expandErrSpec address size := by
  unfold expandErrSpec expand_to_page_boundaries page_round_up_would_wrap
    ADDRESS_SPACE_SIZE PAGE_SIZE at *
  constructor
  · split_ifs with c1 c2 c3
    · simp only [true_iff]
      omega
    · simp only [true_iff]
      omega
    · simp only [true_iff]
      omega
    · simp only [reduceCtorEq, false_iff]
      omega
  · intro hno
    split_ifs with c1 c2 c3
    · omega
    · omega
    · omega
    · exact ⟨_, rfl⟩

/-- Closed witness instantiating `expand_to_page_boundaries_error_iff`. -/
theorem expand_to_page_boundaries_error_iff_witness : expandErrSpec 4096 4096 :=
  expand_to_page_boundaries_error_iff 4096 4096 (by decide) (by decide)

/-- C10: for every page-aligned address whose page round-up does not wrap,
`expand_to_page_boundaries(address, 0)` succeeds and returns the empty range
with base address and size 0 rather than an error or a one-page range. -/
theorem expand_to_page_boundaries_zero (address : Nat)
    (hal : address % PAGE_SIZE = 0)
    (hw : address ≤ ADDRESS_SPACE_SIZE - PAGE_SIZE) :
    expand_to_page_boundaries address 0 = .ok ⟨address, 0⟩ := by
  unfold PAGE_SIZE at hal
  unfold ADDRESS_SPACE_SIZE PAGE_SIZE at hw
  have hm : (address + 0) % ADDRESS_SPACE_SIZE = address := by
    unfold ADDRESS_SPACE_SIZE
    omega
  unfold expand_to_page_boundaries
  rw [hm]
  rw [if_neg (by unfold page_round_up_would_wrap ADDRESS_SPACE_SIZE PAGE_SIZE; omega)]
  rw [if_neg (by omega)]
  rw [if_neg (by unfold page_round_up_would_wrap ADDRESS_SPACE_SIZE PAGE_SIZE; omega)]
  simp only [Except.ok.injEq, VirtualRange.mk.injEq]
  unfold page_round_up page_base PAGE_SIZE
  constructor
  · omega
  · omega

/-- Closed witness instantiating `expand_to_page_boundaries_zero`. -/
theorem expand_to_page_boundaries_zero_witness :
    expand_to_page_boundaries 8192 0 = .ok ⟨8192, 0⟩ :=
  expand_to_page_boundaries_zero 8192 (by decide) (by decide)

/-- Aligns `x` up to the next multiple of `alignment`. -/
def alignUp (alignment x : Nat) : Nat := (x + alignment - 1) / alignment * alignment

/-- Modelled from the spec: the state of a `VirtualRangeAllocator`
(`kernel/memory/VirtualRangeAllocator.h`; the implementation file is not part
of this excerpt).  `free` models the `RedBlackTree` of currently free ranges
ordered by ascending base address; `allocated` is the ghost list of ranges
currently handed out, kept so that the spec's "union of free ranges plus all
ranges currently handed out equals total_range" is expressible. -/
structure AllocatorState where
  total_range : VirtualRange
  free : List VirtualRange
  allocated : List VirtualRange
deriving DecidableEq

/-- Modelled from the spec: `initialize_with_range(base, size)` seeds the
allocator with one free range covering the whole extent. -/
def AllocatorState.initWithRange (base size : Nat) : AllocatorState :=
  ⟨⟨base, size⟩, [⟨base, size⟩], []⟩

/-- Modelled from the spec: `initialize_from_parent(parent)` copies the
parent's total extent and current free-range set.  Ranges the parent has
already handed out remain handed out from the copy's viewpoint, so the ghost
`allocated` list carries over as well. -/
def AllocatorState.initFromParent (parent : AllocatorState) : AllocatorState :=
  ⟨parent.total_range, parent.free, parent.allocated⟩

/-- Modelled from the spec: the scan of `allocate_anywhere` over the free
ranges in ascending base order.  The first free range in which the aligned
sub-range of the requested effective size fits is split via carve; the scan
yields the carved-out range and the updated free list. -/
def allocateAnywhereScan (effectiveSize alignment : Nat) :
    List VirtualRange → Option (VirtualRange × List VirtualRange)
  | [] => none
  | f :: rest =>
    if alignUp alignment f.base + effectiveSize ≤ f.endAddr then
      some (⟨alignUp alignment f.base, effectiveSize⟩,
        f.carveParts ⟨alignUp alignment f.base, effectiveSize⟩ ++ rest)
    else
      match allocateAnywhereScan effectiveSize alignment rest with
      | none => none
      | some (r, rest') => some (r, f :: rest')

/-- Modelled from the spec: `allocate_anywhere(size, alignment)` page-aligns
`size` up, picks the first free range (in ascending-base order) whose aligned
sub-range of that size fits, splits it via carve and returns the carved-out
sub-range; returns nothing if no free range fits. -/
def AllocatorState.allocateAnywhere (s : AllocatorState) (size alignment : Nat) :
    Option VirtualRange × AllocatorState :=
  match allocateAnywhereScan (page_round_up size) alignment s.free with
  | none => (none, s)
  | some (r, free') => (some r, ⟨s.total_range, free', r :: s.allocated⟩)

/-- Scan of `allocate_specific`: finds the free range that fully contains the
requested range and splits it via carve; fails if no free range contains it. -/
def allocateSpecificScan (r : VirtualRange) :
    List VirtualRange → Option (List VirtualRange)
  | [] => none
  | f :: rest =>
    if f.containsRange r then some (f.carveParts r ++ rest)
    else
      match allocateSpecificScan r rest with
      | none => none
      | some rest' => some (f :: rest')

/-- Modelled from the spec: `allocate_specific(address, size)` requires the
exact requested range to be currently free (contained in one of the free
ranges, hence inside the total extent); if so it is carved out of its
containing free range and returned; otherwise nothing is returned and the
state is left untouched. -/
def AllocatorState.allocateSpecific (s : AllocatorState) (address size : Nat) :
    Option VirtualRange × AllocatorState :=
  match allocateSpecificScan ⟨address, size⟩ s.free with
  | none => (none, s)
  | some free' =>
    (some ⟨address, size⟩, ⟨s.total_range, free', ⟨address, size⟩ :: s.allocated⟩)

/-- Modelled from the spec: `allocate_randomized(size, alignment)` tries a
bounded number of random candidate bases (the RNG draws are passed in
explicitly as `candidates`), chopping each down to the requested alignment and
attempting an exact allocation there; once the attempts are exhausted it falls
back to `allocate_anywhere`. -/
def AllocatorState.allocateRandomized (s : AllocatorState) (candidates : List Nat)
    (size alignment : Nat) : Option VirtualRange × AllocatorState :=
  match candidates with
  | [] => s.allocateAnywhere size alignment
  | c :: rest =>
    match s.allocateSpecific (c - c % alignment) size with
    | (some r, s') => (some r, s')
    | (none, _) => s.allocateRandomized rest size alignment

/-- Inserts a freshly deallocated range into the ordered free list, merging
with an adjacent free range on either side so that free ranges stay maximal
(modelled from the spec's description of `deallocate`). -/
def coalesceInsert (r : VirtualRange) : List VirtualRange → List VirtualRange
  | [] => [r]
  | f :: rest =>
    if r.endAddr < f.base then r :: f :: rest
    else if r.endAddr = f.base then ⟨r.base, r.size + f.size⟩ :: rest
    else if f.endAddr = r.base then coalesceInsert ⟨f.base, f.size + r.size⟩ rest
    else f :: coalesceInsert r rest

/-- Modelled from the spec: `deallocate(range)` returns a previously allocated
range to the free set, merging with any adjacent free ranges on either side. -/
def AllocatorState.deallocate (s : AllocatorState) (r : VirtualRange) : AllocatorState :=
  ⟨s.total_range, coalesceInsert r s.free, s.allocated.erase r⟩

/-- The allocator state invariant: the free ranges are kept in ascending base
order with a strict gap between consecutive ones (hence pairwise
non-overlapping and never adjacent), every free and handed-out range is
non-empty and fully contained in `total_range`, handed-out ranges are mutually
disjoint and disjoint from every free range, and every address of
`total_range` lies in a free or handed-out range — so the union of the free
ranges with the handed-out ranges is exactly `total_range`. -/
def AllocatorState.invariant (s : AllocatorState) : Prop :=
  List.Pairwise (fun p q => p.endAddr < q.base) s.free ∧
  (∀ f ∈ s.free, 0 < f.size ∧ s.total_range.containsRange f) ∧
  (∀ x ∈ s.allocated, 0 < x.size ∧ s.total_range.containsRange x) ∧
  List.Pairwise (fun p q => p.endAddr ≤ q.base ∨ q.endAddr ≤ p.base) s.allocated ∧
  (∀ f ∈ s.free, ∀ x ∈ s.allocated, f.endAddr ≤ x.base ∨ x.endAddr ≤ f.base) ∧
  (∀ a < s.total_range.endAddr, s.total_range.base ≤ a →
    (∃ f ∈ s.free, f.containsAddr a) ∨ (∃ x ∈ s.allocated, x.containsAddr a))

instance (s : AllocatorState) : Decidable s.invariant := by
  unfold AllocatorState.invariant
  infer_instance

lemma le_alignUp (alignment x : Nat) (h : 0 < alignment) : x ≤ alignUp alignment x := by
  unfold alignUp
  have h2 := Nat.lt_div_mul_add (a := x + alignment - 1) (b := alignment) h
  omega

lemma page_round_up_pos (size : Nat) (h : 0 < size) : 0 < page_round_up size := by
  unfold page_round_up PAGE_SIZE
  omega

lemma carveParts_mem (f r p : VirtualRange) (hc : f.containsRange r)
    (hp : p ∈ f.carveParts r) :
    0 < p.size ∧ f.base ≤ p.base ∧ p.endAddr ≤ f.endAddr ∧
      (p.endAddr ≤ r.base ∨ r.endAddr ≤ p.base) := by
  obtain ⟨hb, he⟩ := hc
  unfold VirtualRange.carveParts at hp
  by_cases hrf : r = f
  · rw [if_pos hrf] at hp
    simp at hp
  · rw [if_neg hrf] at hp
    simp only [List.mem_append] at hp
    rcases hp with hp | hp
    · by_cases h1 : f.base < r.base
      · rw [if_pos h1] at hp
        simp only [List.mem_singleton] at hp
        subst hp
        simp only [VirtualRange.endAddr] at he ⊢
        omega
      · rw [if_neg h1] at hp
        simp at hp
    · by_cases h2 : r.endAddr < f.endAddr
      · rw [if_pos h2] at hp
        simp only [List.mem_singleton] at hp
        subst hp
        simp only [VirtualRange.endAddr] at he h2 hb ⊢
        omega
      · rw [if_neg h2] at hp
        simp at hp

lemma carveParts_pairwise (f r : VirtualRange) (hc : f.containsRange r)
    (hr : 0 < r.size) :
    List.Pairwise (fun p q => p.endAddr < q.base) (f.carveParts r) := by
  obtain ⟨hb, he⟩ := hc
  unfold VirtualRange.carveParts
  by_cases hrf : r = f
  · rw [if_pos hrf]
    exact List.Pairwise.nil
  · rw [if_neg hrf]
    by_cases h1 : f.base < r.base <;> by_cases h2 : r.endAddr < f.endAddr
    · rw [if_pos h1, if_pos h2]
      refine List.pairwise_append.mpr ⟨List.pairwise_singleton _ _,
        List.pairwise_singleton _ _, ?_⟩
      intro p hp q hq
      simp only [List.mem_singleton] at hp hq
      subst hp
      subst hq
      simp only [VirtualRange.endAddr]
      omega
    · rw [if_pos h1, if_neg h2]
      simp
    · rw [if_neg h1, if_pos h2]
      simp
    · rw [if_neg h1, if_neg h2]
      simp

lemma carveParts_cover (f r : VirtualRange) (hc : f.containsRange r) (a : Nat) :
    f.containsAddr a ↔ (r.containsAddr a ∨ ∃ p ∈ f.carveParts r, p.containsAddr a) := by
  obtain ⟨hb, he⟩ := hc
  unfold VirtualRange.carveParts
  by_cases hrf : r = f
  · subst hrf
    simp only [if_pos rfl, List.not_mem_nil, false_and, exists_false, or_false]
    tauto
  · rw [if_neg hrf]
    have hne : ¬ (r.base = f.base ∧ r.size = f.size) := by
      intro ⟨x, y⟩
      apply hrf
      cases r
      cases f
      simp_all
    by_cases h1 : f.base < r.base <;> by_cases h2 : r.endAddr < f.endAddr
    · rw [if_pos h1, if_pos h2]
      simp only [List.singleton_append, List.mem_cons, List.not_mem_nil, or_false,
        exists_eq_or_imp, exists_eq_left, VirtualRange.containsAddr,
        VirtualRange.endAddr] at *
      omega
    · rw [if_pos h1, if_neg h2]
      simp only [List.append_nil, List.mem_singleton, exists_eq_left,
        VirtualRange.containsAddr, VirtualRange.endAddr] at *
      omega
    · rw [if_neg h1, if_pos h2]
      simp only [List.nil_append, List.mem_singleton, exists_eq_left,
        VirtualRange.containsAddr, VirtualRange.endAddr] at *
      omega
    · rw [if_neg h1, if_neg h2]
      simp only [List.append_nil, List.not_mem_nil, false_and, exists_false,
        or_false, VirtualRange.containsAddr, VirtualRange.endAddr] at *
      omega

lemma allocateAnywhereScan_some (esize al : Nat) (hal : 0 < al) :
    ∀ (L : List VirtualRange) (r : VirtualRange) (L' : List VirtualRange),
      allocateAnywhereScan esize al L = some (r, L') →
      ∃ A f B, L = A ++ f :: B ∧ L' = A ++ (f.carveParts r ++ B) ∧
        f.containsRange r ∧ r.size = esize := by
  intro L
  induction L with
  | nil =>
    intro r L' h
    simp [allocateAnywhereScan] at h
  | cons f rest ih =>
    intro r L' h
    unfold allocateAnywhereScan at h
    by_cases hfit : alignUp al f.base + esize ≤ f.endAddr
    · rw [if_pos hfit] at h
      simp only [Option.some.injEq, Prod.mk.injEq] at h
      obtain ⟨hr, hL⟩ := h
      refine ⟨[], f, rest, rfl, ?_, ?_, ?_⟩
      · rw [List.nil_append, ← hL, ← hr]
      · rw [← hr]
        exact ⟨le_alignUp al f.base hal, hfit⟩
      · rw [← hr]
    · rw [if_neg hfit] at h
      cases hrec : allocateAnywhereScan esize al rest with
      | none =>
        rw [hrec] at h
        simp at h
      | some pr =>
        obtain ⟨r0, rest'⟩ := pr
        rw [hrec] at h
        simp only [Option.some.injEq, Prod.mk.injEq] at h
        obtain ⟨hr0, hL⟩ := h
        obtain ⟨A, f0, B, h1, h2, h3, h4⟩ := ih r0 rest' hrec
        subst hr0
        refine ⟨f :: A, f0, B, ?_, ?_, h3, h4⟩
        · rw [List.cons_append, h1]
        · rw [← hL, List.cons_append, h2]

lemma allocateSpecificScan_some (r : VirtualRange) :
    ∀ (L L' : List VirtualRange), allocateSpecificScan r L = some L' →
      ∃ A f B, L = A ++ f :: B ∧ L' = A ++ (f.carveParts r ++ B) ∧
        f.containsRange r := by
  intro L
  induction L with
  | nil =>
    intro L' h
    simp [allocateSpecificScan] at h
  | cons f rest ih =>
    intro L' h
    unfold allocateSpecificScan at h
    by_cases hcr : f.containsRange r
    · rw [if_pos hcr] at h
      simp only [Option.some.injEq] at h
      exact ⟨[], f, rest, rfl, by rw [List.nil_append, ← h], hcr⟩
    · rw [if_neg hcr] at h
      cases hrec : allocateSpecificScan r rest with
      | none =>
        rw [hrec] at h
        simp at h
      | some rest' =>
        rw [hrec] at h
        simp only [Option.some.injEq] at h
        obtain ⟨A, f0, B, h1, h2, h3⟩ := ih rest' hrec
        refine ⟨f :: A, f0, B, ?_, ?_, h3⟩
        · rw [List.cons_append, h1]
        · rw [← h, List.cons_append, h2]

lemma allocateSpecificScan_none (r : VirtualRange) :
    ∀ L : List VirtualRange,
      (allocateSpecificScan r L = none ↔ ∀ f ∈ L, ¬ f.containsRange r) := by
  intro L
  induction L with
  | nil => simp [allocateSpecificScan]
  | cons f rest ih =>
    unfold allocateSpecificScan
    by_cases hcr : f.containsRange r
    · rw [if_pos hcr]
      simp [hcr]
    · rw [if_neg hcr]
      cases hrec : allocateSpecificScan r rest with
      | none =>
        simp only [List.mem_cons, true_iff]
        intro g hg
        rcases hg with hg | hg
        · subst hg
          exact hcr
        · exact (ih.mp hrec) g hg
      | some rest' =>
        simp only [reduceCtorEq, false_iff, not_forall]
        obtain ⟨A, f0, B, h1, _, h3⟩ := allocateSpecificScan_some r rest rest' hrec
        refine ⟨f0, ?_, ?_⟩
        · rw [h1]
          simp
        · exact not_not_intro h3

lemma invariant_carve (total f r : VirtualRange) (A B alloc : List VirtualRange)
    (hinv : AllocatorState.invariant ⟨total, A ++ f :: B, alloc⟩)
    (hc : f.containsRange r) (hr : 0 < r.size) :
    AllocatorState.invariant ⟨total, A ++ (f.carveParts r ++ B), r :: alloc⟩ := by
  unfold AllocatorState.invariant at hinv ⊢
  dsimp only at hinv ⊢
  obtain ⟨hpw, hfree, halloc, hapw, hfa, hcov⟩ := hinv
  rw [List.pairwise_append] at hpw
  obtain ⟨hA, hfB, hAfB⟩ := hpw
  rw [List.pairwise_cons] at hfB
  obtain ⟨hfB1, hB⟩ := hfB
  have hfmem : f ∈ A ++ f :: B := by simp
  have hfne : 0 < f.size := (hfree f hfmem).1
  have hfin : total.containsRange f := (hfree f hfmem).2
  obtain ⟨hcb, hce⟩ := hc
  refine ⟨?_, ?_, ?_, ?_, ?_, ?_⟩
  · -- free list stays sorted with strict gaps
    rw [List.pairwise_append]
    refine ⟨hA, ?_, ?_⟩
    · rw [List.pairwise_append]
      refine ⟨carveParts_pairwise f r ⟨hcb, hce⟩ hr, hB, ?_⟩
      intro p hp b hb
      have hpm := carveParts_mem f r p ⟨hcb, hce⟩ hp
      have hsep : f.endAddr < b.base := hfB1 b hb
      show p.endAddr < b.base
      omega
    · intro a ha b hb
      rw [List.mem_append] at hb
      show a.endAddr < b.base
      rcases hb with hb | hb
      · have hpm := carveParts_mem f r b ⟨hcb, hce⟩ hb
        have hsep : a.endAddr < f.base := hAfB a ha f (by simp)
        omega
      · exact hAfB a ha b (by simp [hb])
  · -- free ranges non-empty and inside the total range
    intro g hg
    rw [List.mem_append, List.mem_append] at hg
    rcases hg with hg | hg | hg
    · exact hfree g (by simp [hg])
    · have hpm := carveParts_mem f r g ⟨hcb, hce⟩ hg
      obtain ⟨ht1, ht2⟩ := hfin
      exact ⟨hpm.1, by unfold VirtualRange.containsRange at *; omega⟩
    · exact hfree g (by simp [hg])
  · -- handed-out ranges non-empty and inside the total range
    intro x hx
    rcases List.mem_cons.mp hx with hx | hx
    · subst hx
      obtain ⟨ht1, ht2⟩ := hfin
      exact ⟨hr, by unfold VirtualRange.containsRange at *; omega⟩
    · exact halloc x hx
  · -- handed-out ranges pairwise disjoint
    rw [List.pairwise_cons]
    refine ⟨?_, hapw⟩
    intro x hx
    have := hfa f hfmem x hx
    show r.endAddr ≤ x.base ∨ x.endAddr ≤ r.base
    unfold VirtualRange.endAddr at *
    omega
  · -- free ranges disjoint from handed-out ranges
    intro g hg x hx
    rw [List.mem_append, List.mem_append] at hg
    rcases List.mem_cons.mp hx with hx | hx
    · subst hx
      rcases hg with hg | hg | hg
      · have hsep : g.endAddr < f.base := hAfB g hg f (by simp)
        unfold VirtualRange.endAddr at *
        omega
      · exact (carveParts_mem f x g ⟨hcb, hce⟩ hg).2.2.2
      · have hsep : f.endAddr < g.base := hfB1 g hg
        unfold VirtualRange.endAddr at *
        omega
    · rcases hg with hg | hg | hg
      · exact hfa g (by simp [hg]) x hx
      · have hpm := carveParts_mem f r g ⟨hcb, hce⟩ hg
        have := hfa f hfmem x hx
        omega
      · exact hfa g (by simp [hg]) x hx
  · -- every address of the total range is covered
    intro a h1 h2
    rcases hcov a h1 h2 with ⟨g, hg, hga⟩ | ⟨x, hx, hxa⟩
    · rw [List.mem_append] at hg
      rcases hg with hg | hg
      · exact Or.inl ⟨g, by rw [List.mem_append]; exact Or.inl hg, hga⟩
      · rcases List.mem_cons.mp hg with hg | hg
        · subst hg
          rcases (carveParts_cover g r ⟨hcb, hce⟩ a).mp hga with h | ⟨p, hp, hpa⟩
          · exact Or.inr ⟨r, by simp, h⟩
          · refine Or.inl ⟨p, ?_, hpa⟩
            rw [List.mem_append, List.mem_append]
            exact Or.inr (Or.inl hp)
        · refine Or.inl ⟨g, ?_, hga⟩
          rw [List.mem_append, List.mem_append]
          exact Or.inr (Or.inr hg)
    · exact Or.inr ⟨x, by simp [hx], hxa⟩

lemma initWithRange_inv (base size : Nat) (h : 0 < size) :
    (AllocatorState.initWithRange base size).invariant := by
  unfold AllocatorState.initWithRange AllocatorState.invariant
  dsimp only
  refine ⟨List.pairwise_singleton _ _, ?_, ?_, List.Pairwise.nil, ?_, ?_⟩
  · intro f hf
    simp only [List.mem_singleton] at hf
    subst hf
    exact ⟨h, le_refl _, le_refl _⟩
  · intro x hx
    simp at hx
  · intro f _ x hx
    simp at hx
  · intro a h1 h2
    exact Or.inl ⟨⟨base, size⟩, by simp, h2, h1⟩

lemma initFromParent_inv (parent : AllocatorState) (h : parent.invariant) :
    parent.initFromParent.invariant := h

lemma allocateAnywhere_inv (s : AllocatorState) (size alignment : Nat)
    (hinv : s.invariant) (hsz : 0 < size) (hal : 0 < alignment) :
    (s.allocateAnywhere size alignment).2.invariant := by
  obtain ⟨total, free, alloc⟩ := s
  unfold AllocatorState.allocateAnywhere
  dsimp only
  cases hscan : allocateAnywhereScan (page_round_up size) alignment free with
  | none => exact hinv
  | some pr =>
    obtain ⟨r, free'⟩ := pr
    obtain ⟨A, f, B, hL, hL', hcr, hsz'⟩ :=
      allocateAnywhereScan_some _ _ hal free r free' hscan
    dsimp only
    rw [hL] at hinv
    rw [hL']
    exact invariant_carve total f r A B alloc hinv hcr
      (by rw [hsz']; exact page_round_up_pos size hsz)

lemma allocateSpecific_inv (s : AllocatorState) (address size : Nat)
    (hinv : s.invariant) (hsz : 0 < size) :
    (s.allocateSpecific address size).2.invariant := by
  obtain ⟨total, free, alloc⟩ := s
  unfold AllocatorState.allocateSpecific
  dsimp only
  cases hscan : allocateSpecificScan ⟨address, size⟩ free with
  | none => exact hinv
  | some free' =>
    obtain ⟨A, f, B, hL, hL', hcr⟩ :=
      allocateSpecificScan_some ⟨address, size⟩ free free' hscan
    dsimp only
    rw [hL] at hinv
    rw [hL']
    exact invariant_carve total f ⟨address, size⟩ A B alloc hinv hcr hsz

lemma allocateRandomized_inv (s : AllocatorState) (candidates : List Nat)
    (size alignment : Nat) (hinv : s.invariant) (hsz : 0 < size)
    (hal : 0 < alignment) :
    (s.allocateRandomized candidates size alignment).2.invariant := by
  induction candidates with
  | nil => exact allocateAnywhere_inv s size alignment hinv hsz hal
  | cons c rest ih =>
    unfold AllocatorState.allocateRandomized
    have hspec := allocateSpecific_inv s (c - c % alignment) size hinv hsz
    rcases hres : s.allocateSpecific (c - c % alignment) size with ⟨o, s'⟩
    rw [hres] at hspec
    cases o with
    | some r => exact hspec
    | none => exact ih

lemma mem_erase_disjoint (r : VirtualRange) :
    ∀ l : List VirtualRange,
      List.Pairwise (fun p q => p.endAddr ≤ q.base ∨ q.endAddr ≤ p.base) l →
      r ∈ l →
      ∀ x ∈ l.erase r, x.endAddr ≤ r.base ∨ r.endAddr ≤ x.base := by
  intro l
  induction l with
  | nil =>
    intro _ h
    simp at h
  | cons y ys ih =>
    intro hpw hr x hx
    rw [List.pairwise_cons] at hpw
    obtain ⟨hy, hpw'⟩ := hpw
    by_cases hyr : y = r
    · subst hyr
      rw [List.erase_cons_head] at hx
      exact (hy x hx).symm
    · rw [List.erase_cons_tail (by simp [hyr])] at hx
      rcases List.mem_cons.mp hx with hxy | hx'
      · subst hxy
        have hr' : r ∈ ys := by
          rcases List.mem_cons.mp hr with h | h
          · exact absurd h.symm hyr
          · exact h
        exact hy r hr'
      · have hr' : r ∈ ys := by
          rcases List.mem_cons.mp hr with h | h
          · exact absurd h.symm hyr
          · exact h
        exact ih hpw' hr' x hx'

lemma contained_of_covered (total g : VirtualRange) (pieces : List VirtualRange)
    (hg : 0 < g.size)
    (hcov : ∀ a, g.containsAddr a → ∃ p ∈ pieces, p.containsAddr a)
    (hin : ∀ p ∈ pieces, total.containsRange p) :
    total.containsRange g := by
  obtain ⟨p1, hp1, hc1⟩ := hcov g.base ⟨le_refl _, by unfold VirtualRange.endAddr; omega⟩
  obtain ⟨p2, hp2, hc2⟩ := hcov (g.endAddr - 1)
    ⟨by unfold VirtualRange.endAddr; omega, by unfold VirtualRange.endAddr; omega⟩
  have hi1 := hin p1 hp1
  have hi2 := hin p2 hp2
  unfold VirtualRange.containsRange VirtualRange.containsAddr VirtualRange.endAddr at *
  omega

lemma disjoint_of_covered (g x : VirtualRange) (pieces : List VirtualRange)
    (hg : 0 < g.size) (hx : 0 < x.size)
    (hcov : ∀ a, g.containsAddr a → ∃ p ∈ pieces, p.containsAddr a)
    (hdis : ∀ p ∈ pieces, p.endAddr ≤ x.base ∨ x.endAddr ≤ p.base) :
    g.endAddr ≤ x.base ∨ x.endAddr ≤ g.base := by
  by_contra hcon
  push_neg at hcon
  obtain ⟨hc1, hc2⟩ := hcon
  by_cases hcase : g.base ≤ x.base
  · obtain ⟨p, hp, hcp⟩ := hcov x.base ⟨hcase, hc1⟩
    have := hdis p hp
    unfold VirtualRange.containsAddr VirtualRange.endAddr at *
    omega
  · obtain ⟨p, hp, hcp⟩ := hcov g.base ⟨le_refl _, by unfold VirtualRange.endAddr; omega⟩
    have := hdis p hp
    unfold VirtualRange.containsAddr VirtualRange.endAddr at *
    omega

lemma exists_mem_cons {α : Type} (x : α) (l : List α) (P : α → Prop) :
    (∃ g ∈ x :: l, P g) ↔ (P x ∨ ∃ g ∈ l, P g) := by
  constructor
  · rintro ⟨g, hg, hP⟩
    rcases List.mem_cons.mp hg with h | h
    · subst h
      exact Or.inl hP
    · exact Or.inr ⟨g, h, hP⟩
  · rintro (h | ⟨g, hg, hP⟩)
    · exact ⟨x, by simp, h⟩
    · exact ⟨g, by simp [hg], hP⟩

lemma coalesceInsert_props :
    ∀ (L : List VirtualRange) (r : VirtualRange),
      List.Pairwise (fun p q => p.endAddr < q.base) L →
      (∀ f ∈ L, 0 < f.size) →
      0 < r.size →
      (∀ f ∈ L, f.endAddr ≤ r.base ∨ r.endAddr ≤ f.base) →
      List.Pairwise (fun p q => p.endAddr < q.base) (coalesceInsert r L) ∧
      (∀ g ∈ coalesceInsert r L, 0 < g.size) ∧
      (∀ a, (∃ g ∈ coalesceInsert r L, g.containsAddr a) ↔
        (r.containsAddr a ∨ ∃ f ∈ L, f.containsAddr a)) := by
  intro L
  induction L with
  | nil =>
    intro r _ _ hr _
    unfold coalesceInsert
    refine ⟨List.pairwise_singleton _ _, ?_, ?_⟩
    · intro g hg
      simp only [List.mem_singleton] at hg
      subst hg
      exact hr
    · intro a
      rw [exists_mem_cons]
  | cons f rest ih =>
    intro r hpw hne hr hdis
    rw [List.pairwise_cons] at hpw
    obtain ⟨hfsep, hpw'⟩ := hpw
    have hfne : 0 < f.size := hne f (by simp)
    have hdisf := hdis f (by simp)
    unfold coalesceInsert
    by_cases h1 : r.endAddr < f.base
    · rw [if_pos h1]
      refine ⟨?_, ?_, ?_⟩
      · rw [List.pairwise_cons]
        refine ⟨?_, List.pairwise_cons.mpr ⟨hfsep, hpw'⟩⟩
        intro b hb
        rcases List.mem_cons.mp hb with hb | hb
        · subst hb
          exact h1
        · have h2 : f.endAddr < b.base := hfsep b hb
          show r.endAddr < b.base
          unfold VirtualRange.endAddr at *
          omega
      · intro g hg
        rcases List.mem_cons.mp hg with hg | hg
        · subst hg
          exact hr
        · exact hne g hg
      · intro a
        rw [exists_mem_cons, exists_mem_cons]
    · rw [if_neg h1]
      by_cases h2 : r.endAddr = f.base
      · rw [if_pos h2]
        have hmf : ∀ a, (⟨r.base, r.size + f.size⟩ : VirtualRange).containsAddr a ↔
            (r.containsAddr a ∨ f.containsAddr a) := by
          intro a
          unfold VirtualRange.containsAddr VirtualRange.endAddr at *
          dsimp only
          omega
        refine ⟨?_, ?_, ?_⟩
        · rw [List.pairwise_cons]
          refine ⟨?_, hpw'⟩
          intro b hb
          have h3 : f.endAddr < b.base := hfsep b hb
          show VirtualRange.endAddr _ < b.base
          unfold VirtualRange.endAddr at *
          dsimp only
          omega
        · intro g hg
          rcases List.mem_cons.mp hg with hg | hg
          · subst hg
            dsimp only
            omega
          · exact hne g (by simp [hg])
        · intro a
          rw [exists_mem_cons, exists_mem_cons]
          have hm := hmf a
          constructor
          · rintro (h | h)
            · rcases hm.mp h with h' | h'
              · exact Or.inl h'
              · exact Or.inr (Or.inl h')
            · exact Or.inr (Or.inr h)
          · rintro (h | h | h)
            · exact Or.inl (hm.mpr (Or.inl h))
            · exact Or.inl (hm.mpr (Or.inr h))
            · exact Or.inr h
      · rw [if_neg h2]
        by_cases h3 : f.endAddr = r.base
        · rw [if_pos h3]
          have hdis2 : ∀ g ∈ rest,
              g.endAddr ≤ (⟨f.base, f.size + r.size⟩ : VirtualRange).base ∨
                (⟨f.base, f.size + r.size⟩ : VirtualRange).endAddr ≤ g.base := by
            intro g hg
            have e1 := hdis g (by simp [hg])
            have e2 := hfsep g hg
            have e3 := hne g (by simp [hg])
            unfold VirtualRange.endAddr at *
            dsimp only
            omega
          have hmne : 0 < (⟨f.base, f.size + r.size⟩ : VirtualRange).size := by
            dsimp only
            omega
          obtain ⟨ipw, ine, icov⟩ := ih ⟨f.base, f.size + r.size⟩ hpw'
            (fun g hg => hne g (by simp [hg])) hmne hdis2
          have hmf : ∀ a, (⟨f.base, f.size + r.size⟩ : VirtualRange).containsAddr a ↔
              (f.containsAddr a ∨ r.containsAddr a) := by
            intro a
            unfold VirtualRange.containsAddr VirtualRange.endAddr at *
            dsimp only
            omega
          refine ⟨ipw, ine, ?_⟩
          intro a
          rw [icov a, exists_mem_cons]
          have hm := hmf a
          constructor
          · rintro (h | h)
            · rcases hm.mp h with h' | h'
              · exact Or.inr (Or.inl h')
              · exact Or.inl h'
            · exact Or.inr (Or.inr h)
          · rintro (h | h | h)
            · exact Or.inl (hm.mpr (Or.inr h))
            · exact Or.inl (hm.mpr (Or.inl h))
            · exact Or.inr h
        · rw [if_neg h3]
          have h4 : f.endAddr < r.base := by
            unfold VirtualRange.endAddr at *
            omega
          obtain ⟨ipw, ine, icov⟩ := ih r hpw'
            (fun g hg => hne g (by simp [hg])) hr
            (fun g hg => hdis g (by simp [hg]))
          refine ⟨?_, ?_, ?_⟩
          · rw [List.pairwise_cons]
            refine ⟨?_, ipw⟩
            intro b hb
            have hbne : 0 < b.size := ine b hb
            have hbm : b.containsAddr b.base := by
              unfold VirtualRange.containsAddr VirtualRange.endAddr
              omega
            rcases (icov b.base).mp ⟨b, hb, hbm⟩ with hc | ⟨g, hg, hgc⟩
            · show f.endAddr < b.base
              unfold VirtualRange.containsAddr at hc
              omega
            · have h5 : f.endAddr < g.base := hfsep g hg
              show f.endAddr < b.base
              unfold VirtualRange.containsAddr at hgc
              omega
          · intro g hg
            rcases List.mem_cons.mp hg with hg | hg
            · subst hg
              exact hfne
            · exact ine g hg
          · intro a
            rw [exists_mem_cons, exists_mem_cons]
            have hm := icov a
            constructor
            · rintro (h | h)
              · exact Or.inr (Or.inl h)
              · rcases hm.mp h with h' | h'
                · exact Or.inl h'
                · exact Or.inr (Or.inr h')
            · rintro (h | h | h)
              · exact Or.inr (hm.mpr (Or.inl h))
              · exact Or.inl h
              · exact Or.inr (hm.mpr (Or.inr h))

lemma deallocate_inv (s : AllocatorState) (r : VirtualRange)
    (hinv : s.invariant) (hr : r ∈ s.allocated) :
    (s.deallocate r).invariant := by
  obtain ⟨total, free, alloc⟩ := s
  unfold AllocatorState.invariant at hinv ⊢
  unfold AllocatorState.deallocate
  dsimp only at hinv hr ⊢
  obtain ⟨hpw, hfree, halloc, hapw, hfa, hcov⟩ := hinv
  have hrne : 0 < r.size := (halloc r hr).1
  have hrin : total.containsRange r := (halloc r hr).2
  have hdis : ∀ f ∈ free, f.endAddr ≤ r.base ∨ r.endAddr ≤ f.base :=
    fun f hf => hfa f hf r hr
  obtain ⟨cpw, cne, ccov⟩ := coalesceInsert_props free r hpw
    (fun f hf => (hfree f hf).1) hrne hdis
  have hsub : ∀ x ∈ alloc.erase r, x ∈ alloc := fun x hx => List.mem_of_mem_erase hx
  have hdisr : ∀ x ∈ alloc.erase r, x.endAddr ≤ r.base ∨ r.endAddr ≤ x.base :=
    mem_erase_disjoint r alloc hapw hr
  have hcovg : ∀ g ∈ coalesceInsert r free, ∀ a, g.containsAddr a →
      ∃ p ∈ r :: free, p.containsAddr a := by
    intro g hg a ha
    rcases (ccov a).mp ⟨g, hg, ha⟩ with h | ⟨f, hf, hfc⟩
    · exact ⟨r, by simp, h⟩
    · exact ⟨f, by simp [hf], hfc⟩
  refine ⟨cpw, ?_, ?_, ?_, ?_, ?_⟩
  · intro g hg
    refine ⟨cne g hg, ?_⟩
    refine contained_of_covered total g (r :: free) (cne g hg) (hcovg g hg) ?_
    intro p hp
    rcases List.mem_cons.mp hp with hp | hp
    · subst hp
      exact hrin
    · exact (hfree p hp).2
  · intro x hx
    exact halloc x (hsub x hx)
  · exact List.Pairwise.sublist (List.erase_sublist r alloc) hapw
  · intro g hg x hx
    refine disjoint_of_covered g x (r :: free) (cne g hg)
      (halloc x (hsub x hx)).1 (hcovg g hg) ?_
    intro p hp
    rcases List.mem_cons.mp hp with hp | hp
    · subst hp
      have := hdisr x hx
      omega
    · exact hfa p hp x (hsub x hx)
  · intro a h1 h2
    rcases hcov a h1 h2 with ⟨f, hf, hfc⟩ | ⟨x, hx, hxc⟩
    · exact Or.inl ((ccov a).mpr (Or.inr ⟨f, hf, hfc⟩))
    · by_cases hxr : x = r
      · subst hxr
        exact Or.inl ((ccov a).mpr (Or.inl hxc))
      · exact Or.inr ⟨x, (List.mem_erase_of_ne hxr).mpr hx, hxc⟩

/-- C2: every mutating operation of the range allocator — seeding with a
range, copying from a parent, allocate_anywhere, allocate_specific,
allocate_randomized and deallocate — preserves the allocator state invariant:
the free ranges are pairwise non-overlapping, fully contained in the total
range, no two free ranges are adjacent, and the union of the free ranges with
all currently handed-out ranges equals the total range. -/
theorem allocator_invariant_preservation :
    (∀ base size : Nat, 0 < size →
      (AllocatorState.initWithRange base size).invariant) ∧
    (∀ parent : AllocatorState, parent.invariant →
      parent.initFromParent.invariant) ∧
    (∀ (s : AllocatorState) (size alignment : Nat),
      s.invariant → 0 < size → 0 < alignment →
      (s.allocateAnywhere size alignment).2.invariant) ∧
    (∀ (s : AllocatorState) (address size : Nat),
      s.invariant → 0 < size →
      (s.allocateSpecific address size).2.invariant) ∧
    (∀ (s : AllocatorState) (candidates : List Nat) (size alignment : Nat),
      s.invariant → 0 < size → 0 < alignment →
      (s.allocateRandomized candidates size alignment).2.invariant) ∧
    (∀ (s : AllocatorState) (r : VirtualRange),
      s.invariant → r ∈ s.allocated →
      (s.deallocate r).invariant) :=
  ⟨initWithRange_inv, initFromParent_inv, allocateAnywhere_inv,
    allocateSpecific_inv, allocateRandomized_inv, deallocate_inv⟩

/-- Closed witness instantiating every conjunct of
`allocator_invariant_preservation` along a concrete allocation history on the
extent [0x1000, 0x5000). -/
theorem allocator_invariant_preservation_witness :
    (AllocatorState.initWithRange 4096 16384).invariant ∧
    (AllocatorState.initWithRange 4096 16384).initFromParent.invariant ∧
    ((AllocatorState.initWithRange 4096 16384).allocateAnywhere 4096 4096).2.invariant ∧
    (((AllocatorState.initWithRange 4096 16384).allocateAnywhere 4096
      4096).2.allocateSpecific 8192 4096).2.invariant ∧
    ((((AllocatorState.initWithRange 4096 16384).allocateAnywhere 4096
      4096).2.allocateSpecific 8192 4096).2.allocateRandomized [12288] 4096
      4096).2.invariant ∧
    ((((AllocatorState.initWithRange 4096 16384).allocateAnywhere 4096
      4096).2.allocateSpecific 8192 4096).2.deallocate ⟨4096, 4096⟩).invariant := by
  have h0 := allocator_invariant_preservation.1 4096 16384 (by decide)
  have h1 := allocator_invariant_preservation.2.2.1
    (AllocatorState.initWithRange 4096 16384) 4096 4096 h0 (by decide) (by decide)
  have h2 := allocator_invariant_preservation.2.2.2.1
    ((AllocatorState.initWithRange 4096 16384).allocateAnywhere 4096 4096).2
    8192 4096 h1 (by decide)
  refine ⟨h0, allocator_invariant_preservation.2.1 _ h0, h1, h2, ?_, ?_⟩
  · exact allocator_invariant_preservation.2.2.2.2.1 _ [12288] 4096 4096 h2
      (by decide) (by decide)
  · exact allocator_invariant_preservation.2.2.2.2.2 _ ⟨4096, 4096⟩ h2 (by decide)

/-- The success half of `allocate_specific`: the requested range is carved out
of the free range containing it and returned, the remaining free list keeping
the leftover carve pieces in place. -/
def allocateSpecificSpec (s : AllocatorState) (address size : Nat) : Prop :=
  ∃ A f B, s.free = A ++ f :: B ∧ f.containsRange ⟨address, size⟩ ∧
    s.allocateSpecific address size =
      (some ⟨address, size⟩,
        ⟨s.total_range, A ++ (f.carveParts ⟨address, size⟩ ++ B),
          ⟨address, size⟩ :: s.allocated⟩)

/-- C7: `allocate_specific(address, size)` on a request that is not currently
free returns nothing and leaves the allocator state (free ranges and total
range) unchanged; when the exact range is currently free — contained in one of
the free ranges and hence in the total extent — it is carved out of its
containing free range and returned. -/
theorem allocate_specific_correct :
    (∀ (s : AllocatorState) (address size : Nat),
      (∀ f ∈ s.free, ¬ f.containsRange ⟨address, size⟩) →
      s.allocateSpecific address size = (none, s)) ∧
    (∀ (s : AllocatorState) (address size : Nat),
      (∃ f ∈ s.free, f.containsRange ⟨address, size⟩) →
      allocateSpecificSpec s address size) := by
  constructor
  · intro s address size hnone
    unfold AllocatorState.allocateSpecific
    rw [(allocateSpecificScan_none ⟨address, size⟩ s.free).mpr hnone]
  · intro s address size hex
    have hs : allocateSpecificScan ⟨address, size⟩ s.free ≠ none := by
      intro h
      obtain ⟨f, hf, hc⟩ := hex
      exact (allocateSpecificScan_none ⟨address, size⟩ s.free).mp h f hf hc
    cases hscan : allocateSpecificScan ⟨address, size⟩ s.free with
    | none => exact absurd hscan hs
    | some free' =>
      obtain ⟨A, f, B, h1, h2, h3⟩ := allocateSpecificScan_some _ _ _ hscan
      refine ⟨A, f, B, h1, h3, ?_⟩
      unfold AllocatorState.allocateSpecific
      rw [hscan, h2]

/-- Closed witness instantiating both conjuncts of
`allocate_specific_correct`. -/
theorem allocate_specific_correct_witness :
    (AllocatorState.initWithRange 0 4096).allocateSpecific 8192 4096 =
      (none, AllocatorState.initWithRange 0 4096) ∧
    allocateSpecificSpec (AllocatorState.initWithRange 0 12288) 4096 4096 :=
  ⟨allocate_specific_correct.1 (AllocatorState.initWithRange 0 4096) 8192 4096
      (by decide),
    allocate_specific_correct.2 (AllocatorState.initWithRange 0 12288) 4096 4096
      (by decide)⟩

/-- Modelled from the spec: an inode-backed VM object reduced to the state the
clone operation manipulates — its sequence of physical-page ownership tokens
(`m_physical_pages`), one per page, each token identified by the physical page
it references.  The `InodeVMObject` copy constructor invoked by
`PrivateInodeVMObject::try_clone` (its body is not part of this excerpt)
copies this sequence by value. -/
structure InodeVMObject where
  physical_pages : List Nat
deriving DecidableEq

/-- Total number of references to physical page `t` held by the live VM
objects `objs` — the token reference counts of the spec. -/
def pageRefCount (objs : List InodeVMObject) (t : Nat) : Nat :=
  (objs.map (fun o => o.physical_pages.count t)).sum

/-- Models `PrivateInodeVMObject::try_clone`
(`kernel/memory/PrivateInodeVMObject.cpp` lines 18-21): `new (nothrow)` can
fail — `allocOk = false` models an allocation failure of the clone's own
bookkeeping, which makes `adopt_ref_if_nonnull` return null; on success the
copy-constructor chain duplicates the parent's page-token sequence by value. -/
def tryClone (allocOk : Bool) (o : InodeVMObject) : Option InodeVMObject :=
  if allocOk then some ⟨o.physical_pages⟩ else none

/-- Replaces the page token at index `i` — the copy-on-write privatisation
step performed later by the fault-handling collaborator. -/
def InodeVMObject.setPage (o : InodeVMObject) (i : Nat) (t : Nat) : InodeVMObject :=
  ⟨o.physical_pages.set i t⟩

/-- C8: `PrivateInodeVMObject::try_clone` on an object with N pages produces a
new private object whose page-token sequence is a by-value copy of the
parent's N tokens at clone time (same physical-page targets, each token's
reference count raised by its multiplicity in the parent, no page contents
involved), and the clone is subsequently mutable independently of the parent:
replacing a token in the clone yields a new sequence while the parent's stays
the value it had.  When allocation of the clone's own bookkeeping fails,
nothing is returned. -/
theorem private_inode_vmobject_try_clone :
    (∀ o : InodeVMObject, tryClone false o = none) ∧
    (∀ (o : InodeVMObject) (objs : List InodeVMObject),
      ∃ c, tryClone true o = some c ∧
        c.physical_pages = o.physical_pages ∧
        c.physical_pages.length = o.physical_pages.length ∧
        (∀ t, pageRefCount (c :: objs) t =
          pageRefCount objs t + o.physical_pages.count t) ∧
        (∀ i t, (c.setPage i t).physical_pages = o.physical_pages.set i t)) := by
  constructor
  · intro o
    rfl
  · intro o objs
    refine ⟨⟨o.physical_pages⟩, rfl, rfl, rfl, ?_, ?_⟩
    · intro t
      unfold pageRefCount
      rw [List.map_cons, List.sum_cons]
      dsimp only
      omega
    · intro i t
      rfl

/-- Modelled from the spec: the process-wide registry backing
`PageDirectory::find_by_cr3` (`kernel/memory/PageDirectory.h` line 25; the
implementation file holding the registry map is not part of this excerpt).
Directories are identified by an id; the registry maps each hardware root
(cr3) address to the owning directory's id. -/
abbrev DirectoryRegistry : Type := List (Nat × Nat)

/-- Modelled from the spec: the registry entry installed when a directory
finishes construction. -/
def registerDirectory (reg : DirectoryRegistry) (cr3 dir : Nat) : DirectoryRegistry :=
  (cr3, dir) :: reg

/-- Modelled from the spec: removal of the directory's registry entry when the
directory is destroyed. -/
def unregisterDirectory (reg : DirectoryRegistry) (cr3 : Nat) : DirectoryRegistry :=
  reg.filter (fun e => e.1 != cr3)

/-- Models `PageDirectory::find_by_cr3`: looks the hardware root address up in
the process-wide registry and returns the owning directory, if registered. -/
def find_by_cr3 (reg : DirectoryRegistry) (cr3 : Nat) : Option Nat :=
  (reg.find? (fun e => e.1 == cr3)).map (fun e => e.2)

/-- C9: right after a page directory finishes construction (its entry
installed), `find_by_cr3` applied to that directory's `cr3()` value returns
that same directory; after the directory is destroyed (its entry removed),
`find_by_cr3` of the same value returns nothing. -/
theorem find_by_cr3_correct (reg : DirectoryRegistry) (cr3 dir : Nat) :
    find_by_cr3 (registerDirectory reg cr3 dir) cr3 = some dir ∧
    find_by_cr3 (unregisterDirectory (registerDirectory reg cr3 dir) cr3) cr3 = none := by
  constructor
  · unfold find_by_cr3 registerDirectory
    rw [List.find?_cons_of_pos]
    · rfl
    · simp
  · unfold find_by_cr3 unregisterDirectory registerDirectory
    have hnone : List.find? (fun e => e.1 == cr3)
        (List.filter (fun e => e.1 != cr3) ((cr3, dir) :: reg)) = none := by
      rw [List.find?_eq_none]
      intro x hx
      rw [List.mem_filter] at hx
      have h2 := hx.2
      simp only [bne_iff_ne, ne_eq, decide_eq_true_eq] at h2
      simp only [beq_iff_eq]
      exact h2
    rw [hnone]
    rfl

end Kernel.Memory
